import Mathlib

/-!
# Verification of the HD2 porting assistant snapshot/sync engine

Shallow embedding of `hd2_porting_assistant.py` (a Blender add-on that
exports vertex-group / transform / custom-property snapshots of "original"
objects and re-applies them to "duplicate" objects).

Modelling conventions:
* Python `dict`s are association lists (`List (K × V)`); `d[k] = v` is
  `setKey` (update in place if the key exists, else append, matching
  insertion-order semantics), `d.get`/`in` is `getKey`, `del` of all keys
  failing a key-only test is `List.filter`.
* Blender object names are Lean `String`s.  The regex `\.\d{3}$` used by
  `is_duplicate`/`get_original_name` is modelled directly on the character
  list: a literal dot followed by exactly three decimal digits at the end
  of the string.  Python's `$` also matches just before a single trailing
  newline, which the model reproduces; `\d` is modelled as the decimal
  digits 0-9 (`Char.isDigit`).
* Floating-point weights and matrix entries are modelled as `Rat`; no claim
  depends on numeric computation, only on which values are copied where.
* The ambient Blender selection is passed as an explicit list of entities,
  and the snapshot file as an explicit value, following the spec's design
  note that the global selection/file state is better modelled as inputs.
-/

set_option linter.unusedSectionVars false

namespace HD2

/-! ## Dictionary operations (Python `dict` on association lists) -/

variable {K : Type} [DecidableEq K] {B : Type}

/-- The keys of an association list, in order (`dict.keys()`). -/
def keysOf (l : List (K × B)) : List K := l.map Prod.fst

/-- Lookup of the first binding of a key (`d[k]` / `d.get(k)` / `k in d`). -/
def getKey : List (K × B) → K → Option B
  | [], _ => none
  | p :: rest, k => if p.1 = k then some p.2 else getKey rest k

/-- Python `d[k] = v`: overwrite the binding in place if `k` is present,
otherwise append it (insertion-order semantics of `dict`). -/
def setKey (l : List (K × B)) (k : K) (v : B) : List (K × B) :=
  if l.any (fun p => decide (p.1 = k)) then
    l.map (fun p => if p.1 = k then (k, v) else p)
  else
    l ++ [(k, v)]

/-! ## Naming classifier (`is_duplicate`, `get_original_name`)

Source:
```python
def is_duplicate(name):
    return re.search(r"\.\d{3}$", name) is not None

def get_original_name(name):
    return re.sub(r"\.\d{3}$", "", name)
```
The pattern can match ending at the end of the string, or (Python `$`)
ending just before a single trailing newline. -/

/-- Reversed-character test: does the (reversed) string start with three
decimal digits followed by a literal dot, i.e. does the string end in
`.` followed by exactly three digits? -/
def dupSuffixRev : List Char → Bool
  | d1 :: d2 :: d3 :: c :: _ => d1.isDigit && d2.isDigit && d3.isDigit && decide (c = '.')
  | _ => false

/-- Drop the four matched characters from a reversed character list. -/
def stripRev : List Char → List Char
  | _ :: _ :: _ :: _ :: rest => rest
  | l => l

/-- Python `$` also matches just before one trailing newline: the reversed
string starts with a newline and the rest ends with the dot-digits pattern. -/
def nlMatchRev : List Char → Bool
  | c :: rest => decide (c = '\n') && dupSuffixRev rest
  | [] => false

/-- `is_duplicate(name)`: `re.search(r"\.\d{3}$", name) is not None`. -/
def is_duplicate (s : String) : Bool :=
  dupSuffixRev s.data.reverse || nlMatchRev s.data.reverse

/-- `get_original_name(name)`: `re.sub(r"\.\d{3}$", "", name)` — remove the
single possible match of the anchored pattern, if any. -/
def get_original_name (s : String) : String :=
  if dupSuffixRev s.data.reverse then
    String.mk (stripRev s.data.reverse).reverse
  else if nlMatchRev s.data.reverse then
    String.mk (match s.data.reverse with
               | c :: rest => (c :: stripRev rest).reverse
               | [] => [])
  else s


/-! ## Custom properties (`get_custom_properties`, `apply_custom_properties`)

Source:
```python
def apply_custom_properties(obj, props):
    for key in list(obj.keys()):
        if key == "_RNA_UI":
            continue
        if key not in props:
            del obj[key]
    for key, value in props.items():
        if key == "_RNA_UI":
            continue
        obj[key] = value
    if "_RNA_UI" in props:
        obj["_RNA_UI"] = props["_RNA_UI"]
```
The delete loop walks a snapshot of the keys and deletes by key only, which
on a duplicate-free `dict` is `filter`; the apply loop is a left fold of
`setKey`; the deep copies (`dict(...)`) are value copies, the identity in a
pure model. -/

/-- The reserved metadata sidecar key. -/
def RNA_UI : String := "_RNA_UI"

/-- Body of the property-apply loop: skip the reserved key, else `obj[key] = value`. -/
def applyStep (acc : List (String × B)) (p : String × B) : List (String × B) :=
  if p.1 = RNA_UI then acc else setKey acc p.1 p.2

/-- The delete loop of `apply_custom_properties`: keep a property iff it is
the reserved key or a key of `props`. -/
def keptProps (obj props : List (String × B)) : List (String × B) :=
  obj.filter (fun p => decide (p.1 = RNA_UI) || props.any (fun q => decide (q.1 = p.1)))

/-- `apply_custom_properties(obj, props)`: prune extras, overwrite with the
record's values, then restore the reserved metadata key wholesale. -/
def apply_custom_properties (obj props : List (String × B)) : List (String × B) :=
  match getKey props RNA_UI with
  | some v => setKey (props.foldl applyStep (keptProps obj props)) RNA_UI v
  | none => props.foldl applyStep (keptProps obj props)

/-- `get_custom_properties(obj)`: copy all generic keys, then the reserved
metadata key last if present. -/
def get_custom_properties (obj : List (String × B)) : List (String × B) :=
  match getKey obj RNA_UI with
  | some v => setKey (obj.foldl applyStep []) RNA_UI v
  | none => obj.foldl applyStep []


/-! ## Group reordering (the sync engine's adjacent-transposition sort)

Source (inside `HD2_OT_sync_duplicates.execute`):
```python
for target_index, group_name in enumerate(desired_order):
    vg = obj.vertex_groups.get(group_name)
    if vg is None:
        continue
    while vg.index > target_index:
        obj.vertex_groups.active_index = vg.index
        bpy.ops.object.vertex_group_move(direction='UP')
```
The host's group list is modelled as the ordered list of group names;
`vertex_group_move(direction='UP')` swaps the group with its predecessor,
decrementing its index by one each iteration. -/

/-- Swap the elements at positions `i` and `i + 1` (a single `UP` move of the
group at index `i + 1`). -/
def swapAdj {α : Type} : List α → Nat → List α
  | [], _ => []
  | [a], _ => [a]
  | a :: b :: rest, 0 => b :: a :: rest
  | a :: b :: rest, i + 1 => a :: swapAdj (b :: rest) i

/-- The `while vg.index > target_index` loop: the element currently at
position `idx` is repeatedly swapped with its predecessor until its index
equals `t`. -/
def bubbleUp {α : Type} : List α → Nat → Nat → List α
  | l, 0, _ => l
  | l, idx + 1, t => if t < idx + 1 then bubbleUp (swapAdj l idx) idx t else l

/-- `obj.vertex_groups.get(group_name)` followed by `.index`: the position of
the named group, if present. -/
def groupIndex : List String → String → Option Nat
  | [], _ => none
  | x :: rest, name => if x = name then some 0 else (groupIndex rest name).map (fun i => i + 1)

/-- One iteration of the `for target_index, group_name in enumerate(...)`
loop body. -/
def placeGroup (l : List String) (t : Nat) (name : String) : List String :=
  match groupIndex l name with
  | none => l
  | some idx => bubbleUp l idx t

/-- The enumerate loop, carrying the current target index. -/
def matchOrderAux : List String → Nat → List String → List String
  | l, _, [] => l
  | l, t, name :: rest => matchOrderAux (placeGroup l t name) (t + 1) rest

/-- The whole reordering pass over `desired_order`. -/
def matchOrder (l order : List String) : List String := matchOrderAux l 0 order


/-! ## Data model: live entities and snapshot records

`Entity` models the host-owned `LiveEntity` (a selected mesh object):
name, the ordered list of vertex-group names, the mesh vertices with their
per-group memberships (`vert.groups` entries pair a group index with a
weight), the world transform, and the object-level custom-property store.
`Record` models one snapshot `EntityRecord` as serialized to the JSON file;
`custom_properties` is optional because sync reads it with
`original.get("custom_properties", {})`. -/

/-- A mesh vertex: its index and its `(group index, weight)` memberships. -/
structure Vert where
  index : Nat
  groups : List (Nat × Rat)
deriving DecidableEq

/-- A live mesh object, generically over the custom-property value type `B`. -/
structure Entity (B : Type) where
  name : String
  vertexGroups : List String
  verts : List Vert
  matrix_world : List (List Rat)
  props : List (String × B)
deriving DecidableEq

/-- One snapshot record (`EntityRecord`). -/
structure Record (B : Type) where
  matrix_world : List (List Rat)
  group_order : List String
  groups : List (String × List (Nat × Rat))
  custom_properties : Option (List (String × B))
deriving DecidableEq

/-! ## Export (`HD2_OT_export_original`) -/

/-- The weight map of the group with index `gi`:
```python
weights = {}
for vert in obj.data.vertices:
    for g in vert.groups:
        if g.group == vg.index:
            weights[vert.index] = g.weight
```
-/
def weightsFor (verts : List Vert) (gi : Nat) : List (Nat × Rat) :=
  verts.foldl
    (fun w v => v.groups.foldl (fun w2 g => if g.1 = gi then setKey w2 v.index g.2 else w2) w)
    []

/-- The `groups` dictionary built by iterating `obj.vertex_groups` (whose
positions are the group indices), assigning `groups[vg.name] = weights`. -/
def buildGroupsAux (verts : List Vert) :
    Nat → List String → List (String × List (Nat × Rat)) → List (String × List (Nat × Rat))
  | _, [], acc => acc
  | i, nm :: rest, acc => buildGroupsAux verts (i + 1) rest (setKey acc nm (weightsFor verts i))

/-- The per-object body of `HD2_OT_export_original.execute`: build one
snapshot record from a live entity. -/
def export_entity {B : Type} (e : Entity B) : Record B :=
  { matrix_world := e.matrix_world
    group_order := e.vertexGroups
    groups := buildGroupsAux e.verts 0 e.vertexGroups []
    custom_properties := some (get_custom_properties e.props) }

/-- `HD2_OT_export_original.poll`: a non-empty selection none of whose
members is classified as a duplicate. -/
def export_poll {B : Type} (objs : List (Entity B)) : Bool :=
  !objs.isEmpty && !(objs.any (fun o => is_duplicate o.name))

/-- The exported snapshot dictionary (`data[obj.name] = obj_data`). -/
def export_data {B : Type} (objs : List (Entity B)) : List (String × Record B) :=
  objs.foldl (fun acc o => setKey acc o.name (export_entity o)) []

/-- Outcome of invoking an operator through the host, which runs `poll`
before `execute` and refuses the invocation when it fails. -/
inductive OpResult where
  | finished
  | blocked
deriving DecidableEq

/-- Invoking "Export Originals": when `poll` fails the operator does not run
and the persisted snapshot file is left untouched; otherwise `execute`
overwrites the file with the freshly exported snapshot. -/
def export_invoke {B : Type} (objs : List (Entity B))
    (file : Option (List (String × Record B))) :
    OpResult × Option (List (String × Record B)) :=
  if export_poll objs then (OpResult.finished, some (export_data objs)) else (OpResult.blocked, file)


/-! ## Sync (`HD2_OT_sync_duplicates.execute`), per entity and per batch -/

/-- The per-entity body of the sync loop: look up the canonical name in the
loaded snapshot; on a miss, warn and leave the entity untouched; otherwise
prune extra groups, reorder, restore the transform and overlay the custom
properties.  The second component is the optional `WARNING` report. -/
def sync_entity {B : Type} (snap : List (String × Record B)) (e : Entity B) :
    Entity B × Option String :=
  match getKey snap (get_original_name e.name) with
  | none => (e, some ("Original not found for " ++ e.name))
  | some original =>
      ({ e with
          vertexGroups :=
            matchOrder
              (e.vertexGroups.filter (fun nm => decide (nm ∈ keysOf original.groups)))
              original.group_order
          matrix_world := original.matrix_world
          props := apply_custom_properties e.props (original.custom_properties.getD []) },
       none)

/-- The sync batch loop over the selected entities, collecting the per-entity
results and the emitted warnings in order. -/
def sync_execute {B : Type} (snap : List (String × Record B)) :
    List (Entity B) → List (Entity B) × List String
  | [] => ([], [])
  | o :: rest =>
      ((sync_entity snap o).1 :: (sync_execute snap rest).1,
       (sync_entity snap o).2.toList ++ (sync_execute snap rest).2)


/-! ## Lemmas about the embedded operations -/

@[simp] theorem keysOf_nil : keysOf ([] : List (K × B)) = [] := rfl

@[simp] theorem keysOf_cons (p : K × B) (l : List (K × B)) :
    keysOf (p :: l) = p.1 :: keysOf l := rfl

theorem mem_keysOf_iff (l : List (K × B)) (k : K) :
    k ∈ keysOf l ↔ ∃ p, p ∈ l ∧ p.1 = k := by
  simp [keysOf, List.mem_map]

theorem any_key_iff (l : List (K × B)) (k : K) :
    (l.any (fun p => decide (p.1 = k)) = true) ↔ k ∈ keysOf l := by
  rw [mem_keysOf_iff]
  simp [List.any_eq_true]

theorem getKey_map_set (l : List (K × B)) (k : K) (v : B) (h : k ∈ keysOf l) :
    getKey (l.map (fun p => if p.1 = k then (k, v) else p)) k = some v := by
  induction l with
  | nil => simp at h
  | cons p rest ih =>
    by_cases hp : p.1 = k
    · simp [getKey, hp]
    · have hk : k ∈ keysOf rest := by
        rcases (by simpa using h) with h1 | h1
        · exact absurd h1.symm hp
        · exact h1
      simp [getKey, hp, ih hk]

theorem getKey_append_single (l : List (K × B)) (k : K) (v : B)
    (h : ∀ p ∈ l, p.1 ≠ k) :
    getKey (l ++ [(k, v)]) k = some v := by
  induction l with
  | nil => simp [getKey]
  | cons p rest ih =>
    have hp : p.1 ≠ k := h p (List.mem_cons_self _ _)
    simpa [getKey, hp] using ih (fun q hq => h q (List.mem_cons_of_mem _ hq))

theorem getKey_setKey_self (l : List (K × B)) (k : K) (v : B) :
    getKey (setKey l k v) k = some v := by
  unfold setKey
  split
  · next h => exact getKey_map_set l k v ((any_key_iff l k).1 h)
  · next h =>
    apply getKey_append_single
    intro p hp hpk
    exact h ((any_key_iff l k).2 ((mem_keysOf_iff l k).2 ⟨p, hp, hpk⟩))

theorem getKey_map_set_other (l : List (K × B)) (k k' : K) (v : B) (h : k' ≠ k) :
    getKey (l.map (fun p => if p.1 = k then (k, v) else p)) k' = getKey l k' := by
  induction l with
  | nil => rfl
  | cons p rest ih =>
    by_cases hp : p.1 = k
    · have h1 : k ≠ k' := fun e => h e.symm
      have h2 : p.1 ≠ k' := by rw [hp]; exact h1
      simp [getKey, hp, h1, h2, ih]
    · by_cases hq : p.1 = k'
      · simp [getKey, hp, hq, h]
      · simp [getKey, hp, hq, ih]

theorem getKey_append_single_other (l : List (K × B)) (k k' : K) (v : B)
    (h : k' ≠ k) :
    getKey (l ++ [(k, v)]) k' = getKey l k' := by
  induction l with
  | nil =>
    have h1 : k ≠ k' := fun e => h e.symm
    simp [getKey, h1]
  | cons p rest ih =>
    by_cases hq : p.1 = k'
    · simp [getKey, hq]
    · simp [getKey, hq, ih]

theorem getKey_setKey_other (l : List (K × B)) (k k' : K) (v : B) (h : k' ≠ k) :
    getKey (setKey l k v) k' = getKey l k' := by
  unfold setKey
  split
  · exact getKey_map_set_other l k k' v h
  · exact getKey_append_single_other l k k' v h

theorem getKey_isSome_iff (l : List (K × B)) (k : K) :
    ((getKey l k).isSome = true) ↔ k ∈ keysOf l := by
  induction l with
  | nil => simp [getKey]
  | cons p rest ih =>
    by_cases hp : p.1 = k
    · simp [getKey, hp]
    · have : ¬ k = p.1 := fun e => hp e.symm
      simp [getKey, hp, ih, this]

theorem getKey_eq_none_iff (l : List (K × B)) (k : K) :
    getKey l k = none ↔ k ∉ keysOf l := by
  rw [← getKey_isSome_iff]
  cases getKey l k <;> simp
theorem get_original_name_of_not_dup (s : String) (h : is_duplicate s = false) :
    get_original_name s = s := by
  unfold is_duplicate at h
  rcases Bool.or_eq_false_iff.1 h with ⟨h1, h2⟩
  unfold get_original_name
  rw [h1, h2]
  simp

theorem getKey_foldl_applyStep (props : List (String × B)) (acc : List (String × B))
    (k : String) (hk : k ≠ RNA_UI) (hnd : (keysOf props).Nodup) :
    getKey (props.foldl applyStep acc) k =
      (match getKey props k with
       | some v => some v
       | none => getKey acc k) := by
  induction props generalizing acc with
  | nil => simp [getKey]
  | cons p rest ih =>
    rw [List.foldl_cons]
    have hnd1 : p.1 ∉ keysOf rest := (List.nodup_cons.1 (by simpa using hnd)).1
    have hnd2 : (keysOf rest).Nodup := (List.nodup_cons.1 (by simpa using hnd)).2
    by_cases hpk : p.1 = k
    · have hrest : getKey rest k = none :=
        (getKey_eq_none_iff rest k).2 (by rw [← hpk]; exact hnd1)
      have hstep : getKey (applyStep acc p) k = some p.2 := by
        unfold applyStep
        have : ¬ p.1 = RNA_UI := by rw [hpk]; exact hk
        rw [if_neg this, hpk, getKey_setKey_self]
      rw [ih (applyStep acc p) hnd2]
      simp [getKey, hpk, hrest, hstep]
    · have hstep : getKey (applyStep acc p) k = getKey acc k := by
        unfold applyStep
        split
        · rfl
        · exact getKey_setKey_other acc p.1 k p.2 (fun e => hpk e.symm)
      rw [ih (applyStep acc p) hnd2]
      simp [getKey, hpk, hstep]

theorem getKey_foldl_applyStep_RNA (props : List (String × B)) (acc : List (String × B)) :
    getKey (props.foldl applyStep acc) RNA_UI = getKey acc RNA_UI := by
  induction props generalizing acc with
  | nil => rfl
  | cons p rest ih =>
    rw [List.foldl_cons, ih]
    unfold applyStep
    split
    · rfl
    · next h => exact getKey_setKey_other acc p.1 RNA_UI p.2 (fun e => h e.symm)

theorem getKey_filter_key (l : List (K × B)) (f : K → Bool) (k : K) :
    getKey (l.filter (fun p => f p.1)) k = if f k = true then getKey l k else none := by
  induction l with
  | nil => simp [getKey]
  | cons p rest ih =>
    by_cases hf : f p.1 = true
    · by_cases hp : p.1 = k
      · have : f k = true := by rw [← hp]; exact hf
        simp [List.filter_cons, hf, getKey, hp, this]
      · simp [List.filter_cons, hf, getKey, hp, ih]
    · by_cases hp : p.1 = k
      · have : f k = false := by rw [← hp]; simpa using hf
        simp [List.filter_cons, hf, getKey, hp, this, ih]
      · simp [List.filter_cons, hf, getKey, hp, ih]

/-- Per-key behaviour of the overlay away from the reserved key: the final
value is exactly the record's value (present keys are overwritten, absent
keys are deleted). -/
theorem getKey_apply_custom_properties (obj props : List (String × B)) (k : String)
    (hk : k ≠ RNA_UI) (hnd : (keysOf props).Nodup) :
    getKey (apply_custom_properties obj props) k = getKey props k := by
  unfold apply_custom_properties
  have hbase : getKey (props.foldl applyStep (keptProps obj props)) k = getKey props k := by
    rw [getKey_foldl_applyStep props (keptProps obj props) k hk hnd]
    cases hpk : getKey props k with
    | some v => rfl
    | none =>
      have hmem : k ∉ keysOf props := (getKey_eq_none_iff props k).1 hpk
      have hany : props.any (fun q => decide (q.1 = k)) = false := by
        rcases Bool.eq_false_or_eq_true (props.any (fun q => decide (q.1 = k))) with h | h
        · exact absurd ((any_key_iff props k).1 h) hmem
        · exact h
      unfold keptProps
      rw [getKey_filter_key obj (fun x => decide (x = RNA_UI) || props.any (fun q => decide (q.1 = x))) k]
      simp [hk, hany]
  cases hR : getKey props RNA_UI with
  | some v =>
    rw [getKey_setKey_other _ RNA_UI k v hk, hbase]
  | none => exact hbase

/-- When the record carries the reserved metadata key, the overlay ends with
exactly the record's value under that key. -/
theorem getKey_apply_RNA_present (obj props : List (String × B)) (v : B)
    (h : getKey props RNA_UI = some v) :
    getKey (apply_custom_properties obj props) RNA_UI = some v := by
  unfold apply_custom_properties
  rw [h]
  exact getKey_setKey_self _ RNA_UI v

/-- When the record lacks the reserved metadata key, the overlay leaves the
entity's reserved-key value untouched. -/
theorem getKey_apply_RNA_absent (obj props : List (String × B))
    (h : getKey props RNA_UI = none) :
    getKey (apply_custom_properties obj props) RNA_UI = getKey obj RNA_UI := by
  unfold apply_custom_properties
  rw [h, getKey_foldl_applyStep_RNA]
  unfold keptProps
  rw [getKey_filter_key obj (fun x => decide (x = RNA_UI) || props.any (fun q => decide (q.1 = x))) RNA_UI]
  simp

theorem swapAdj_perm {α : Type} : ∀ (l : List α) (i : Nat), (swapAdj l i).Perm l
  | [], _ => List.Perm.refl _
  | [_], _ => List.Perm.refl _
  | a :: b :: rest, 0 => List.Perm.swap a b rest
  | a :: b :: rest, i + 1 => List.Perm.cons a (swapAdj_perm (b :: rest) i)

theorem bubbleUp_perm {α : Type} : ∀ (idx : Nat) (l : List α) (t : Nat),
    (bubbleUp l idx t).Perm l
  | 0, l, _ => List.Perm.refl l
  | idx + 1, l, t => by
    unfold bubbleUp
    split
    · exact ((bubbleUp_perm idx (swapAdj l idx) t).trans (swapAdj_perm l idx))
    · exact List.Perm.refl l

theorem placeGroup_perm (l : List String) (t : Nat) (name : String) :
    (placeGroup l t name).Perm l := by
  unfold placeGroup
  cases groupIndex l name with
  | none => exact List.Perm.refl l
  | some idx => exact bubbleUp_perm idx l t

theorem matchOrderAux_perm : ∀ (rest l : List String) (t : Nat),
    (matchOrderAux l t rest).Perm l
  | [], l, _ => List.Perm.refl l
  | name :: rest, l, t =>
    (matchOrderAux_perm rest (placeGroup l t name) (t + 1)).trans
      (placeGroup_perm l t name)

theorem matchOrder_perm (l order : List String) : (matchOrder l order).Perm l :=
  matchOrderAux_perm order l 0

theorem swapAdj_append {α : Type} :
    ∀ (l1 : List α) (y x : α) (l2 : List α),
      swapAdj (l1 ++ y :: x :: l2) l1.length = l1 ++ x :: y :: l2
  | [], y, x, l2 => rfl
  | a :: l1, y, x, l2 => by
    have ih := swapAdj_append l1 y x l2
    cases l1 with
    | nil => rfl
    | cons c l1 =>
      show swapAdj (a :: c :: (l1 ++ y :: x :: l2)) ((c :: l1).length + 1) = _
      simpa [swapAdj] using ih

/-- What the `while` loop does when the element sits at index `l1.length`
and the target `t` is at or above the start: the element is extracted and
re-inserted at position `t`, shifting `l1.drop t` one place down. -/
theorem bubbleUp_at (x : String) :
    ∀ (l1 : List String) (l2 : List String) (t : Nat), t ≤ l1.length →
      bubbleUp (l1 ++ x :: l2) l1.length t = l1.take t ++ x :: (l1.drop t ++ l2) := by
  intro l1
  induction l1 using List.reverseRecOn with
  | nil =>
    intro l2 t ht
    have ht0 : t = 0 := Nat.le_zero.1 (by simpa using ht)
    subst ht0
    rfl
  | append_singleton l1 y ih =>
    intro l2 t ht
    rw [List.length_append, List.length_singleton] at ht ⊢
    rcases Nat.lt_or_ge t (l1.length + 1) with hlt | hge
    · have ht1 : t ≤ l1.length := Nat.lt_succ_iff.1 hlt
      have harr : l1 ++ [y] ++ x :: l2 = l1 ++ y :: x :: l2 := by simp
      rw [show bubbleUp (l1 ++ [y] ++ x :: l2) (l1.length + 1) t =
            if t < l1.length + 1 then
              bubbleUp (swapAdj (l1 ++ [y] ++ x :: l2) l1.length) l1.length t
            else l1 ++ [y] ++ x :: l2 from rfl]
      rw [if_pos hlt, harr, swapAdj_append l1 y x l2, ih (y :: l2) t ht1]
      rw [List.take_append_of_le_length ht1, List.drop_append_of_le_length ht1]
      simp
    · have ht2 : t = l1.length + 1 := Nat.le_antisymm ht hge
      subst ht2
      rw [show bubbleUp (l1 ++ [y] ++ x :: l2) (l1.length + 1) (l1.length + 1) =
            if l1.length + 1 < l1.length + 1 then
              bubbleUp (swapAdj (l1 ++ [y] ++ x :: l2) l1.length) l1.length (l1.length + 1)
            else l1 ++ [y] ++ x :: l2 from rfl]
      rw [if_neg (Nat.lt_irrefl _)]
      rw [List.take_of_length_le (by simp), List.drop_of_length_le (by simp)]
      simp

theorem groupIndex_none_iff (l : List String) (name : String) :
    groupIndex l name = none ↔ name ∉ l := by
  induction l with
  | nil => simp [groupIndex]
  | cons x rest ih =>
    by_cases hx : x = name
    · simp [groupIndex, hx]
    · have : ¬ name = x := fun e => hx e.symm
      simp [groupIndex, hx, this, ih]

theorem groupIndex_decomp :
    ∀ (l : List String) (name : String) (idx : Nat), groupIndex l name = some idx →
      ∃ l1 l2, l = l1 ++ name :: l2 ∧ l1.length = idx ∧ name ∉ l1 := by
  intro l
  induction l with
  | nil => intro name idx h; simp [groupIndex] at h
  | cons x rest ih =>
    intro name idx h
    by_cases hx : x = name
    · simp only [groupIndex, if_pos hx] at h
      exact ⟨[], rest, by simp [hx], by simpa using Option.some.inj h, by simp⟩
    · simp only [groupIndex, if_neg hx] at h
      rcases Option.map_eq_some'.1 h with ⟨j, hj, hji⟩
      rcases ih name j hj with ⟨l1, l2, hl, hlen, hnm⟩
      refine ⟨x :: l1, l2, by rw [hl]; rfl, by simp [hlen, hji], ?_⟩
      intro hmem
      rcases List.mem_cons.1 hmem with he | he
      · exact hx he.symm
      · exact hnm he

/-- Invariant of the enumerate loop: if the already-placed prefix
`l.take t` together with the names still to place is duplicate-free and
every remaining name is present, the loop extends the placed prefix by
exactly `rest` and permutes the list. -/
theorem matchOrderAux_spec :
    ∀ (rest l : List String) (t : Nat), t ≤ l.length →
      (l.take t ++ rest).Nodup →
      (∀ n, n ∈ rest → n ∈ l) →
      (matchOrderAux l t rest).take (t + rest.length) = l.take t ++ rest ∧
        (matchOrderAux l t rest).Perm l := by
  intro rest
  induction rest with
  | nil =>
    intro l t ht hnd hmem
    constructor
    · simp [matchOrderAux]
    · exact List.Perm.refl l
  | cons name rest ih =>
    intro l t ht hnd hmem
    have hin : name ∈ l := hmem name (List.mem_cons_self _ _)
    have hgi : ∃ idx, groupIndex l name = some idx := by
      cases hg : groupIndex l name with
      | none => exact absurd ((groupIndex_none_iff l name).1 hg) (by simpa using hin)
      | some idx => exact ⟨idx, rfl⟩
    rcases hgi with ⟨idx, hgi⟩
    rcases groupIndex_decomp l name idx hgi with ⟨l1, l2, hl, hlen, hl1⟩
    have hname_take : name ∉ l.take t := by
      have hd := hnd
      rw [List.nodup_append] at hd
      intro hmemt
      exact hd.2.2 hmemt (List.mem_cons_self _ _)
    have htle : t ≤ l1.length := by
      by_contra hgt
      push_neg at hgt
      apply hname_take
      rw [hl, List.take_append_eq_append_take]
      have : 1 ≤ t - l1.length := by omega
      have hmem1 : name ∈ (name :: l2).take (t - l1.length) := by
        cases hvt : t - l1.length with
        | zero => omega
        | succ m => simp [List.take_succ_cons]
      exact List.mem_append.2 (Or.inr hmem1)
    have hplace : placeGroup l t name = l1.take t ++ name :: (l1.drop t ++ l2) := by
      unfold placeGroup
      rw [hgi, hl, ← hlen]
      exact bubbleUp_at name l1 l2 t htle
    have htake_l : l.take t = l1.take t := by
      rw [hl, List.take_append_eq_append_take, Nat.sub_eq_zero_of_le htle]
      simp
    have hlen_take : (l1.take t).length = t := by
      rw [List.length_take]
      omega
    have hperm_place : (placeGroup l t name).Perm l := placeGroup_perm l t name
    have htake_place : (placeGroup l t name).take (t + 1) = l.take t ++ [name] := by
      rw [hplace, htake_l, List.take_append_eq_append_take,
          List.take_of_length_le (by omega), hlen_take,
          Nat.add_sub_cancel_left]
      simp
    have hlen_place : (placeGroup l t name).length = l.length :=
      hperm_place.length_eq
    have ht1 : t + 1 ≤ (placeGroup l t name).length := by
      rw [hlen_place, hl]
      have : l1.length < (l1 ++ name :: l2).length := by simp
      omega
    have hnd1 : ((placeGroup l t name).take (t + 1) ++ rest).Nodup := by
      rw [htake_place]
      have : l.take t ++ [name] ++ rest = l.take t ++ name :: rest := by simp
      rw [this]
      exact hnd
    have hmem1 : ∀ n, n ∈ rest → n ∈ placeGroup l t name := by
      intro n hn
      exact (hperm_place.mem_iff).2 (hmem n (List.mem_cons_of_mem _ hn))
    rcases ih (placeGroup l t name) (t + 1) ht1 hnd1 hmem1 with ⟨htk, hpm⟩
    constructor
    · show (matchOrderAux (placeGroup l t name) (t + 1) rest).take (t + (rest.length + 1)) = _
      have harith : t + (rest.length + 1) = t + 1 + rest.length := by omega
      rw [harith, htk, htake_place]
      simp
    · exact hpm.trans hperm_place


theorem getKey_buildGroupsAux_isSome (verts : List Vert) :
    ∀ (names : List String) (i : Nat) (acc : List (String × List (Nat × Rat))) (n : String),
      ((getKey (buildGroupsAux verts i names acc) n).isSome = true) ↔
        n ∈ names ∨ (getKey acc n).isSome = true := by
  intro names
  induction names with
  | nil => intro i acc n; simp [buildGroupsAux]
  | cons nm rest ih =>
    intro i acc n
    show ((getKey (buildGroupsAux verts (i + 1) rest (setKey acc nm (weightsFor verts i))) n).isSome = true) ↔ _
    rw [ih (i + 1) (setKey acc nm (weightsFor verts i)) n]
    by_cases hn : n = nm
    · subst hn
      rw [getKey_setKey_self]
      simp
    · rw [getKey_setKey_other acc nm n (weightsFor verts i) hn]
      simp [hn]


theorem sync_execute_append {B : Type} (snap : List (String × Record B)) :
    ∀ (xs ys : List (Entity B)),
      sync_execute snap (xs ++ ys) =
        ((sync_execute snap xs).1 ++ (sync_execute snap ys).1,
         (sync_execute snap xs).2 ++ (sync_execute snap ys).2) := by
  intro xs ys
  induction xs with
  | nil => simp [sync_execute]
  | cons o rest ih =>
    show sync_execute snap (o :: (rest ++ ys)) = _
    rw [show sync_execute snap (o :: (rest ++ ys)) =
          ((sync_entity snap o).1 :: (sync_execute snap (rest ++ ys)).1,
           (sync_entity snap o).2.toList ++ (sync_execute snap (rest ++ ys)).2) from rfl]
    rw [ih]
    simp [sync_execute]


/-! ## The claims -/

/-- Claim C1, as stated, is false: with groups `["C", "B"]` on the entity and
target order `["A", "B", "C"]` (where `"A"` is absent on the entity), the
reordering step leaves `["C", "B"]`, not the relative order `["B", "C"]`
prescribed by the target order restricted to the present names: the loop only
ever moves a group up to its target position, so a group sitting above the
slot of a skipped absent name is never moved down. -/
theorem C1_counterexample :
    ¬ ((matchOrder ["C", "B"] ["A", "B", "C"]).filter
          (fun n => decide (n ∈ (["A", "B", "C"] : List String))) =
        (["A", "B", "C"] : List String).filter
          (fun n => decide (n ∈ (["C", "B"] : List String)))) := by
  decide

/-- Claim C1 (amended): when every name of `group_order` is present on the
entity (and names are duplicate-free), the reordering step places the groups
of `group_order` in exactly that order in the leading positions, and the
group list stays a permutation of the original. -/
theorem C1_theorem (l order : List String) (h1 : order.Nodup)
    (h2 : ∀ n, n ∈ order → n ∈ l) :
    (matchOrder l order).take order.length = order ∧ (matchOrder l order).Perm l := by
  have h := matchOrderAux_spec order l 0 (Nat.zero_le _) (by simpa using h1) h2
  simpa [matchOrder] using h

/-- Witness for C1: a concrete run of the amended theorem. -/
theorem C1_witness :
    (matchOrder ["C", "A", "B"] ["A", "B", "C"]).take (["A", "B", "C"] : List String).length =
        ["A", "B", "C"] ∧
      (matchOrder ["C", "A", "B"] ["A", "B", "C"]).Perm ["C", "A", "B"] :=
  C1_theorem ["C", "A", "B"] ["A", "B", "C"] (by decide) (by decide)

/-- Claim C2, as stated, is false: `get_original_name` strips exactly one
trailing `.ddd` suffix, so for the stacked-suffix name `"a.001.002"` the
stripped name `"a.001"` is itself classified as a duplicate, and stripping
again changes it ( `"a"` ≠ `"a.001"` ): neither conjunct of the claim holds. -/
theorem C2_counterexample :
    is_duplicate (get_original_name "a.001.002") = true ∧
      get_original_name (get_original_name "a.001.002") ≠ get_original_name "a.001.002" := by
  decide

/-- Claim C2 (amended): stripping removes exactly one trailing duplicate
suffix, so it is idempotent precisely on names whose once-stripped form is
no longer classified as a duplicate (names without stacked suffixes). -/
theorem C2_theorem (n : String) (h : is_duplicate (get_original_name n) = false) :
    get_original_name (get_original_name n) = get_original_name n :=
  get_original_name_of_not_dup _ h

/-- Witness for C2: stripping `"Arm.001"` is idempotent. -/
theorem C2_witness :
    get_original_name (get_original_name "Arm.001") = get_original_name "Arm.001" :=
  C2_theorem "Arm.001" (by decide)

/-- Claim C3: when the selection is empty or contains a duplicate, the
export operator's `poll` fails, the host refuses the invocation and the
persisted snapshot file is left exactly as it was. -/
theorem C3_theorem {B : Type} (objs : List (Entity B))
    (file : Option (List (String × Record B)))
    (h : objs = [] ∨ ∃ o, o ∈ objs ∧ is_duplicate o.name = true) :
    export_invoke objs file = (OpResult.blocked, file) := by
  have hp : export_poll objs = false := by
    rcases h with h | ⟨o, ho, hd⟩
    · simp [export_poll, h]
    · have hany : objs.any (fun o => is_duplicate o.name) = true :=
        List.any_eq_true.2 ⟨o, ho, hd⟩
      simp [export_poll, hany]
  simp [export_invoke, hp]

/-- Witness for C3: a singleton selection holding the duplicate `"X.001"`
blocks the export and leaves the (absent) snapshot file untouched. -/
theorem C3_witness :
    export_invoke [(⟨"X.001", [], [], [], []⟩ : Entity Nat)] none = (OpResult.blocked, none) :=
  C3_theorem [(⟨"X.001", [], [], [], []⟩ : Entity Nat)] none (Or.inr (by decide))

/-- Claim C4: for a matched duplicate whose record satisfies the data-model
invariant that `group_order` and the key set of `groups` hold the same
names, the groups surviving sync are exactly the pre-sync groups named in
`record.group_order` (extras are pruned, nothing is created). -/
theorem C4_theorem {B : Type} (snap : List (String × Record B)) (e : Entity B)
    (r : Record B) (h1 : getKey snap (get_original_name e.name) = some r)
    (h2 : ∀ n, n ∈ r.group_order ↔ n ∈ keysOf r.groups) :
    ∀ n, n ∈ (sync_entity snap e).1.vertexGroups ↔
      (n ∈ e.vertexGroups ∧ n ∈ r.group_order) := by
  intro n
  have hs : (sync_entity snap e).1.vertexGroups =
      matchOrder (e.vertexGroups.filter (fun nm => decide (nm ∈ keysOf r.groups)))
        r.group_order := by
    unfold sync_entity
    rw [h1]
  rw [hs, (matchOrder_perm _ _).mem_iff, List.mem_filter]
  simp [h2 n]

/-- Witness for C4: the pre-sync group `"Extra"`, absent from the record,
does not survive the sync of `"Leg.002"`. -/
theorem C4_witness :
    "Extra" ∈ (sync_entity [("Leg", (⟨[], ["A"], [("A", [])], none⟩ : Record Nat))]
        ⟨"Leg.002", ["A", "Extra"], [], [], []⟩).1.vertexGroups ↔
      ("Extra" ∈ ["A", "Extra"] ∧
        "Extra" ∈ (⟨[], ["A"], [("A", [])], none⟩ : Record Nat).group_order) :=
  C4_theorem _ _ _ (by decide) (fun n => Iff.rfl) "Extra"

/-- Claim C5: a duplicate whose canonical name is missing from the loaded
snapshot is returned completely unmodified together with a warning naming
it, and the rest of the batch is processed exactly as it would be alone. -/
theorem C5_theorem {B : Type} (snap : List (String × Record B)) (e : Entity B)
    (pre post : List (Entity B))
    (h : getKey snap (get_original_name e.name) = none) :
    sync_entity snap e = (e, some ("Original not found for " ++ e.name)) ∧
      sync_execute snap (pre ++ e :: post) =
        ((sync_execute snap pre).1 ++ e :: (sync_execute snap post).1,
         (sync_execute snap pre).2 ++
           ("Original not found for " ++ e.name) :: (sync_execute snap post).2) := by
  have h1 : sync_entity snap e = (e, some ("Original not found for " ++ e.name)) := by
    unfold sync_entity
    rw [h]
  refine ⟨h1, ?_⟩
  rw [sync_execute_append snap pre (e :: post)]
  rw [show sync_execute snap (e :: post) =
        ((sync_entity snap e).1 :: (sync_execute snap post).1,
         (sync_entity snap e).2.toList ++ (sync_execute snap post).2) from rfl]
  rw [h1]
  simp

/-- Witness for C5: syncing `"Leg.002"` against an empty snapshot warns and
leaves the entity untouched. -/
theorem C5_witness :
    sync_entity ([] : List (String × Record Nat)) ⟨"Leg.002", ["G"], [], [], []⟩ =
        ((⟨"Leg.002", ["G"], [], [], []⟩ : Entity Nat),
          some ("Original not found for " ++ "Leg.002")) ∧
      sync_execute ([] : List (String × Record Nat))
          ([] ++ (⟨"Leg.002", ["G"], [], [], []⟩ : Entity Nat) :: []) =
        ((sync_execute ([] : List (String × Record Nat)) []).1 ++
            (⟨"Leg.002", ["G"], [], [], []⟩ : Entity Nat) ::
              (sync_execute ([] : List (String × Record Nat)) []).1,
         (sync_execute ([] : List (String × Record Nat)) []).2 ++
           ("Original not found for " ++ "Leg.002") ::
             (sync_execute ([] : List (String × Record Nat)) []).2) :=
  C5_theorem [] ⟨"Leg.002", ["G"], [], [], []⟩ [] [] rfl

/-- Claim C6: away from the reserved metadata key, the final value of every
property equals the record's value (record keys are set, extras deleted);
and when the record carries the reserved key, the entity ends with exactly
the record's metadata value, replaced wholesale. -/
theorem C6_theorem {B : Type} (obj props : List (String × B))
    (hnd : (keysOf props).Nodup) :
    (∀ k, k ≠ RNA_UI →
        getKey (apply_custom_properties obj props) k = getKey props k) ∧
      (∀ v, getKey props RNA_UI = some v →
        getKey (apply_custom_properties obj props) RNA_UI = some v) :=
  ⟨fun k hk => getKey_apply_custom_properties obj props k hk hnd,
   fun v hv => getKey_apply_RNA_present obj props v hv⟩

/-- Witness for C6: the stale key `"stale"` is deleted and the record's
metadata value 7 replaces the entity's metadata wholesale. -/
theorem C6_witness :
    (getKey (apply_custom_properties [("hp", 9), ("stale", 3), ("_RNA_UI", 0)]
          [("hp", 1), ("_RNA_UI", 7)]) "stale" =
        getKey [("hp", 1), ("_RNA_UI", 7)] "stale") ∧
      getKey (apply_custom_properties [("hp", 9), ("stale", 3), ("_RNA_UI", 0)]
          [("hp", 1), ("_RNA_UI", 7)]) RNA_UI = some 7 :=
  ⟨(C6_theorem [("hp", 9), ("stale", 3), ("_RNA_UI", 0)] [("hp", 1), ("_RNA_UI", 7)]
        (by decide)).1 "stale" (by decide),
   (C6_theorem [("hp", 9), ("stale", 3), ("_RNA_UI", 0)] [("hp", 1), ("_RNA_UI", 7)]
        (by decide)).2 7 (by decide)⟩

/-- Claim C7: applying the property overlay twice with the same record gives
the same final property mapping (every key, the reserved one included) as
applying it once. -/
theorem C7_theorem {B : Type} (obj props : List (String × B))
    (hnd : (keysOf props).Nodup) :
    ∀ k, getKey (apply_custom_properties (apply_custom_properties obj props) props) k =
      getKey (apply_custom_properties obj props) k := by
  intro k
  by_cases hk : k = RNA_UI
  · subst hk
    cases hR : getKey props RNA_UI with
    | some v =>
      rw [getKey_apply_RNA_present _ props v hR, getKey_apply_RNA_present obj props v hR]
    | none => rw [getKey_apply_RNA_absent _ props hR]
  · rw [getKey_apply_custom_properties _ props k hk hnd,
        getKey_apply_custom_properties obj props k hk hnd]

/-- Witness for C7: a concrete double application agrees with a single one. -/
theorem C7_witness :
    getKey (apply_custom_properties (apply_custom_properties [("a", 2)] [("b", 3)])
        [("b", 3)]) "b" =
      getKey (apply_custom_properties [("a", 2)] [("b", 3)]) "b" :=
  C7_theorem [("a", 2)] [("b", 3)] (by decide) "b"

/-- Claim C8: every exported record's `group_order` has no duplicate entries
(the host keeps group names unique on an object) and holds exactly the key
set of the record's `groups` mapping. -/
theorem C8_theorem {B : Type} (e : Entity B) (h : e.vertexGroups.Nodup) :
    (export_entity e).group_order.Nodup ∧
      ∀ n, (n ∈ (export_entity e).group_order ↔ n ∈ keysOf (export_entity e).groups) := by
  refine ⟨h, ?_⟩
  intro n
  show n ∈ e.vertexGroups ↔ n ∈ keysOf (buildGroupsAux e.verts 0 e.vertexGroups [])
  rw [← getKey_isSome_iff, getKey_buildGroupsAux_isSome e.verts e.vertexGroups 0 [] n]
  simp [getKey]

/-- Witness for C8: a concrete export of an entity with groups
`["Root", "Mid"]`. -/
theorem C8_witness :
    (export_entity (⟨"Arm", ["Root", "Mid"], [⟨0, [(0, 1)]⟩], [], []⟩ : Entity Nat)).group_order.Nodup ∧
      ("Root" ∈ (export_entity (⟨"Arm", ["Root", "Mid"], [⟨0, [(0, 1)]⟩], [], []⟩ : Entity Nat)).group_order ↔
        "Root" ∈ keysOf (export_entity (⟨"Arm", ["Root", "Mid"], [⟨0, [(0, 1)]⟩], [], []⟩ : Entity Nat)).groups) :=
  ⟨(C8_theorem (⟨"Arm", ["Root", "Mid"], [⟨0, [(0, 1)]⟩], [], []⟩ : Entity Nat) (by decide)).1,
   (C8_theorem (⟨"Arm", ["Root", "Mid"], [⟨0, [(0, 1)]⟩], [], []⟩ : Entity Nat) (by decide)).2 "Root"⟩

/-- Claim C9: when the record's `custom_properties` lacks the reserved
metadata key, sync leaves the duplicate's reserved-key value exactly as it
was — the generic prune rule skips the reserved key and no branch clears it. -/
theorem C9_theorem {B : Type} (obj props : List (String × B))
    (h : getKey props RNA_UI = none) :
    getKey (apply_custom_properties obj props) RNA_UI = getKey obj RNA_UI :=
  getKey_apply_RNA_absent obj props h

/-- Witness for C9: with no metadata in the record, the entity's metadata
value 4 survives the overlay. -/
theorem C9_witness :
    getKey (apply_custom_properties [("_RNA_UI", 4), ("hp", 2)] [("hp", 1)]) RNA_UI =
      getKey [("_RNA_UI", 4), ("hp", 2)] RNA_UI :=
  C9_theorem [("_RNA_UI", 4), ("hp", 2)] [("hp", 1)] (by decide)

/-- Claim C10: a matched record with no `custom_properties` field is read as
an empty mapping, so sync deletes every generic property of the duplicate
and leaves the reserved metadata key untouched. -/
theorem C10_theorem {B : Type} (snap : List (String × Record B)) (e : Entity B)
    (r : Record B) (h1 : getKey snap (get_original_name e.name) = some r)
    (h2 : r.custom_properties = none) :
    (∀ k, k ≠ RNA_UI → getKey (sync_entity snap e).1.props k = none) ∧
      getKey (sync_entity snap e).1.props RNA_UI = getKey e.props RNA_UI := by
  have hp : (sync_entity snap e).1.props = apply_custom_properties e.props [] := by
    unfold sync_entity
    rw [h1]
    simp [h2]
  constructor
  · intro k hk
    rw [hp, getKey_apply_custom_properties e.props [] k hk (by simp [keysOf])]
    rfl
  · rw [hp]
    exact getKey_apply_RNA_absent e.props [] rfl

/-- Witness for C10: a record without `custom_properties` wipes the generic
key `"x"` but keeps the entity's metadata value 5. -/
theorem C10_witness :
    (getKey (sync_entity [("Leg", (⟨[], [], [], none⟩ : Record Nat))]
        ⟨"Leg.002", [], [], [], [("x", 1), ("_RNA_UI", 5)]⟩).1.props "x" = none) ∧
      getKey (sync_entity [("Leg", (⟨[], [], [], none⟩ : Record Nat))]
          ⟨"Leg.002", [], [], [], [("x", 1), ("_RNA_UI", 5)]⟩).1.props RNA_UI =
        getKey [("x", 1), ("_RNA_UI", 5)] RNA_UI :=
  ⟨(C10_theorem [("Leg", (⟨[], [], [], none⟩ : Record Nat))]
        ⟨"Leg.002", [], [], [], [("x", 1), ("_RNA_UI", 5)]⟩
        (⟨[], [], [], none⟩ : Record Nat) (by decide) rfl).1 "x" (by decide),
   (C10_theorem [("Leg", (⟨[], [], [], none⟩ : Record Nat))]
        ⟨"Leg.002", [], [], [], [("x", 1), ("_RNA_UI", 5)]⟩
        (⟨[], [], [], none⟩ : Record Nat) (by decide) rfl).2⟩

end HD2
